import Mathlib

/-!
Verification of the `amx-rs` crate: a shallow embedding of its register-file
model, outer-product operand encoder, whole-file reads, and the emulated
primitives, together with proofs of the specified properties.

The register files are modelled byte-wise as functions `Nat → Nat` (`x`/`y`
hold 8 rows × 64 bytes = 512 bytes, `z` holds 64 rows × 64 bytes = 4096
bytes); positions beyond the file size are irrelevant junk.  16-bit lanes are
little-endian byte pairs, so a lane value is a bit pattern in `[0, 65536)` and
Rust's wrapping `i16` arithmetic is arithmetic modulo 65536 on bit patterns.
-/

namespace Amx

/-- The coprocessor register file, as documented in `lib.rs`:
`x : [[u8; 64]; 8]`, `y : [[u8; 64]; 8]`, `z : [[u8; 64]; 64]`, modelled
byte-wise. -/
structure AmxState where
  x : Nat → Nat
  y : Nat → Nat
  z : Nat → Nat

/-- Modelled from the spec: the `transfer_in` primitive behind `load512`
(module `load_store`/`ops`, not present in the sources) replaces the 64 bytes
of row `row` of the X file with the caller's buffer. -/
def load512_x (s : AmxState) (row : Nat) (buf : Nat → Nat) : AmxState :=
  { s with x := fun a => if a / 64 = row then buf (a % 64) else s.x a }

/-- Modelled from the spec: `load512` into a Y row. -/
def load512_y (s : AmxState) (row : Nat) (buf : Nat → Nat) : AmxState :=
  { s with y := fun a => if a / 64 = row then buf (a % 64) else s.y a }

/-- Modelled from the spec: `load512` into a Z row. -/
def load512_z (s : AmxState) (row : Nat) (buf : Nat → Nat) : AmxState :=
  { s with z := fun a => if a / 64 = row then buf (a % 64) else s.z a }

/-- Modelled from the spec: the `transfer_out` primitive behind `store512`:
the 64 bytes written to the caller's buffer are row `row` of the file `f`. -/
def store512_row (f : Nat → Nat) (row : Nat) : Nat → Nat :=
  fun c => f (64 * row + c)

/-- The whole-file read loop of `read_x`/`read_y`/`read_z` in `lib.rs`:
starting from an arbitrary (uninitialized) buffer `init`, store each of the
`rows` register rows in increasing order at byte offset `64 * i`. -/
def read_rows (f : Nat → Nat) (rows : Nat) (init : Nat → Nat) : Nat → Nat :=
  (List.range rows).foldl
    (fun buf i => fun a => if a / 64 = i then store512_row f i (a % 64) else buf a)
    init

/-- `read_x` from `lib.rs`: stores X rows 0..8 in order into the result. -/
def read_x (s : AmxState) (init : Nat → Nat) : Nat → Nat :=
  read_rows s.x 8 init

/-- `read_y` from `lib.rs`: stores Y rows 0..8 in order into the result. -/
def read_y (s : AmxState) (init : Nat → Nat) : Nat → Nat :=
  read_rows s.y 8 init

/-- `read_z` from `lib.rs`: stores Z rows 0..64 in order into the result. -/
def read_z (s : AmxState) (init : Nat → Nat) : Nat → Nat :=
  read_rows s.z 64 init

/-- The row indices at which `read_x` issues its `store512` calls, in issue
order (the loop `for i in 0..8`). -/
def read_x_rows_issued : List Nat := List.range 8

/-- The row indices at which `read_y` issues its `store512` calls, in issue
order. -/
def read_y_rows_issued : List Nat := List.range 8

/-- The row indices at which `read_z` issues its `store512` calls, in issue
order (the loop `for i in 0..64`). -/
def read_z_rows_issued : List Nat := List.range 64

/-- The 16-bit little-endian lane at element index `i` of a 512-byte file,
starting from byte offset `off` (offsets wrap within the 512-byte file). -/
def word16 (f : Nat → Nat) (off i : Nat) : Nat :=
  f ((off + 2 * i) % 512) + 256 * f ((off + 2 * i + 1) % 512)

/-- The 16-bit little-endian lane at column `i` of Z row `r`. -/
def z16 (s : AmxState) (r i : Nat) : Nat :=
  s.z (64 * r + 2 * i) + 256 * s.z (64 * r + 2 * i + 1)

/-- The 64-byte buffer holding a vector of 32 16-bit values in little-endian
byte order, as produced by `x.as_ptr()` over an `[i16; 32]` array (each value
is taken as its 16-bit pattern `v k % 65536`). -/
def i16_row_bytes (v : Nat → Nat) : Nat → Nat :=
  fun b => if b % 2 = 0 then v (b / 2) % 256 else v (b / 2) / 256 % 256

/-- A register file whose bytes are all zero, the emulation backend's
initial state. -/
def sZero : AmxState :=
  { x := fun _ => 0, y := fun _ => 0, z := fun _ => 0 }

/-- A state whose X and Y rows 0 hold the 32-lane `i16` vector of all ones
(little-endian bytes), with Z zeroed. -/
def sOnes : AmxState :=
  { x := fun a => if a < 64 ∧ a % 2 = 0 then 1 else 0,
    y := fun a => if a < 64 ∧ a % 2 = 0 then 1 else 0,
    z := fun _ => 0 }

/-- A state whose X row 0 holds the table `fun k => k + 7` and whose X bytes
64..96 hold the packed nibbles of the constant index array `fun n => 5`
(each packed byte is `5 + 16 * 5 = 85`). -/
def sLut : AmxState :=
  { x := fun a => if a < 64 then a + 7 else 85,
    y := fun _ => 0,
    z := fun _ => 0 }

/-- The constant 4-bit index array `5, 5, 5, ...`. -/
def idx5 : Nat → Nat := fun _ => 5

/-- The table `k ↦ k + 7`. -/
def tbl7 : Nat → Nat := fun k => k + 7

/-- The Y-offset field of the `mac16` operand word (bits 0..10). -/
def dec_yoff (w : Nat) : Nat := w % 1024

/-- The X-offset field of the `mac16` operand word (bits 10..20). -/
def dec_xoff (w : Nat) : Nat := w / 1024 % 1024

/-- The Z-row field of the `mac16` operand word (bits 20..26). -/
def dec_zrow (w : Nat) : Nat := w / 2 ^ 20 % 64

/-- The no-accumulate flag of the `mac16` operand word (bit 27). -/
def dec_noacc (w : Nat) : Nat := w / 2 ^ 27 % 2

/-- The exclude-X flag of the `mac16` operand word (bit 28). -/
def dec_excx (w : Nat) : Nat := w / 2 ^ 28 % 2

/-- The exclude-Y flag of the `mac16` operand word (bit 29). -/
def dec_excy (w : Nat) : Nat := w / 2 ^ 29 % 2

/-- The product term of the emulated `mac16` at Z row `r`, column `i`: the
X lane at element `i` times the Y lane at element `r / 2`, where an excluded
operand degenerates to a hardware-defined broadcast of the other operand
(modelled as the multiplicative identity). -/
def mac16_prod (s : AmxState) (w r i : Nat) : Nat :=
  (if dec_excx w = 1 then 1 else word16 s.x (dec_xoff w) i) *
    (if dec_excy w = 1 then 1 else word16 s.y (dec_yoff w) (r / 2))

/-- Modelled from the spec: the 16-bit lane value that the emulated `mac16`
(module `emu`, not present in the sources) writes at Z row `r`, column `i`.
Per the spec the no-accumulate flag selects overwrite vs. add; per the
crate's doc example the product lane for row `r` uses Y element `r / 2`. -/
def mac16_val (s : AmxState) (w r i : Nat) : Nat :=
  ((if dec_noacc w = 1 then 0 else z16 s r i) + mac16_prod s w r i) % 65536

/-- Modelled from the spec and the crate's doc example: the emulated `mac16`
primitive (module `emu`, not present in the sources).  It decodes the operand
word and performs the 16-bit outer product with accumulate/exclusion
semantics, writing every second Z row: row `2*j + (zrow % 2)` receives the
products with Y element `j`, as pinned by the doc example
`z[y_i * 2][x_i] == x * y`.  Only the parity of the Z-row field is used. -/
def mac16 (s : AmxState) (w : Nat) : AmxState :=
  { s with z := fun a =>
      if a / 64 < 64 ∧ a / 64 % 2 = dec_zrow w % 2 then
        if a % 2 = 0 then mac16_val s w (a / 64) (a % 64 / 2) % 256
        else mac16_val s w (a / 64) (a % 64 / 2) / 256
      else s.z a }

/-- Modelled from the spec: the 32-bit (f32) multiply-accumulate path
(module `emu`, not present in the sources) writes a single Z row, the one
selected by the operand word's Z-row field.  The floating-point lane values
are outside this embedding and are abstracted by the parameter `v`. -/
def mac32 (v : Nat → Nat) (s : AmxState) (w : Nat) : AmxState :=
  { s with z := fun a => if a / 64 = dec_zrow w then v (a % 64) else s.z a }

/-- The operand word built by `outer_product_i16_xy_to_z` in `lib.rs`:
`y | (x << 10) | (z << 20) | ((!accumulate) << 27) | (x.is_none() << 28)
| (y.is_none() << 29)`, cast to `u64`. -/
def outer_product_i16_word (x_offset_bytes y_offset_bytes : Option Nat)
    (z_index : Nat) (accumulate : Bool) : Nat :=
  (y_offset_bytes.getD 0 |||
        x_offset_bytes.getD 0 <<< 10 |||
        z_index <<< 20 |||
        (if accumulate then 0 else 1) <<< 27 |||
        (if x_offset_bytes.isNone then 1 else 0) <<< 28 |||
        (if y_offset_bytes.isNone then 1 else 0) <<< 29) % 2 ^ 64

/-- The `debug_assert!` preconditions of `outer_product_i16_xy_to_z` in
`lib.rs`: both offsets (0 when absent) below `0x200` and `z_index < 64`. -/
def outer_product_i16_preconds (x_offset_bytes y_offset_bytes : Option Nat)
    (z_index : Nat) : Prop :=
  x_offset_bytes.getD 0 < 512 ∧ y_offset_bytes.getD 0 < 512 ∧ z_index < 64

instance (xo yo : Option Nat) (z : Nat) : Decidable (outer_product_i16_preconds xo yo z) :=
  inferInstanceAs (Decidable (_ ∧ _))

/-- `outer_product_i16_xy_to_z` from `lib.rs`: encodes the operand word from
its four arguments and issues one `mac16` with it.  The result is the updated
state together with the operand word passed to `mac16`. -/
def outer_product_i16_xy_to_z (s : AmxState) (x_offset_bytes y_offset_bytes : Option Nat)
    (z_index : Nat) (accumulate : Bool) : AmxState × Nat :=
  (mac16 s (outer_product_i16_word x_offset_bytes y_offset_bytes z_index accumulate),
    outer_product_i16_word x_offset_bytes y_offset_bytes z_index accumulate)

/-- The index source of the `lut` operation: a byte offset into Y (the
`Left(YBytes _)` case of the test) or into X (the `Right(XBytes _)` case). -/
inductive LutIn where
  | yBytes (off : Nat)
  | xBytes (off : Nat)

/-- The byte offset of a `lut` index source. -/
def LutIn.off : LutIn → Nat
  | .yBytes o => o
  | .xBytes o => o

/-- The register file a `lut` index source reads from. -/
def LutIn.read (s : AmxState) : LutIn → Nat → Nat
  | .yBytes _ => s.y
  | .xBytes _ => s.x

/-- Half-open range overlap, as in the crate's test suite
(`tests/genlut.rs`): `[a, b)` overlaps `[c, d)` iff `a < d && b > c`. -/
def overlapsRange (a b c d : Nat) : Prop :=
  a < d ∧ b > c

instance (a b c d : Nat) : Decidable (overlapsRange a b c d) :=
  inferInstanceAs (Decidable (_ ∧ _))

/-- The 4-bit lookup index used for output position `a % 64`: nibble
`a % 64` of the packed index bytes starting at the input's byte offset (two
indices per byte, low nibble first, as pinned by the expected-value
computation in `tests/genlut.rs`; reads wrap within the 512-byte file, so a
source straddling a 64-byte row boundary is read transparently). -/
def lut_index4 (s : AmxState) (input : LutIn) (a : Nat) : Nat :=
  if a % 2 = 0 then input.read s ((input.off + a % 64 / 2) % 512) % 16
  else input.read s ((input.off + a % 64 / 2) % 512) / 16 % 16

/-- Modelled from the spec: the genlut subsystem (module `genlut`, not
present in the sources) for the selector `(Normal, Index4, X8)`.  It
validates that the table row and output row are in range and that the
index-source byte range does not overlap the table row's byte range in
either addressing page (the base page and the page offset by 512 bytes, the
ranges used by `tests/genlut.rs`), rejecting the call before issuing any
primitive otherwise.  On success it writes each of the 64 bytes of the X
output row with the table byte selected by the corresponding packed 4-bit
index. -/
def lut_normal_index4_x8 (s : AmxState) (input : LutIn)
    (table_row out_row : Nat) : Option AmxState :=
  if table_row < 8 ∧ out_row < 8 ∧
      ¬ overlapsRange input.off (input.off + 64) (64 * table_row) (64 * table_row + 64) ∧
      ¬ overlapsRange input.off (input.off + 64)
          (64 * table_row + 512) (64 * table_row + 64 + 512) then
    some { s with
      x := fun a =>
        if a / 64 = out_row then s.x (64 * table_row + lut_index4 s input a)
        else s.x a }
  else none

theorem lor_two_pow_mul (n : Nat) :
    ∀ a b : Nat, a < 2 ^ n → a ||| 2 ^ n * b = a + 2 ^ n * b := by
  induction n with
  | zero =>
    intro a b h
    have ha : a = 0 := by omega
    subst ha
    simp
  | succ n ih =>
    intro a b h
    have hbit : Nat.bit (a.testBit 0) (a >>> 1) = a :=
      Nat.bit_testBit_zero_shiftRight_one a
    have hlow : 2 ^ (n + 1) * b = Nat.bit false (2 ^ n * b) := by
      simp [Nat.bit_val, Nat.pow_succ]
      ring
    have hdiv : a >>> 1 = a / 2 := Nat.shiftRight_one a
    have hlt : a >>> 1 < 2 ^ n := by
      rw [hdiv]
      have := Nat.pow_succ 2 n
      omega
    calc a ||| 2 ^ (n + 1) * b
        = Nat.bit (a.testBit 0) (a >>> 1) ||| Nat.bit false (2 ^ n * b) := by
          rw [hbit, hlow]
      _ = Nat.bit (a.testBit 0 || false) (a >>> 1 ||| 2 ^ n * b) := Nat.lor_bit _ _ _ _
      _ = Nat.bit (a.testBit 0) (a >>> 1 + 2 ^ n * b) := by
          rw [Bool.or_false, ih _ b hlt]
      _ = a + 2 ^ (n + 1) * b := by
          rw [Nat.bit_val]
          have hval : Nat.bit (a.testBit 0) (a >>> 1) = 2 * (a >>> 1) + (a.testBit 0).toNat := by
            rw [Nat.bit_val]
          rw [hbit] at hval
          have hdouble : 2 ^ (n + 1) * b = 2 * (2 ^ n * b) := by
            rw [Nat.pow_succ]
            ring
          omega

theorem lor_mul_two_pow (n a b : Nat) (h : a < 2 ^ n) :
    a ||| b * 2 ^ n = a + b * 2 ^ n := by
  rw [Nat.mul_comm b, lor_two_pow_mul n a b h, Nat.mul_comm]

theorem outer_product_word_eq_sum (xo yo : Option Nat) (z : Nat) (acc : Bool)
    (hx : xo.getD 0 < 512) (hy : yo.getD 0 < 512) (hz : z < 64) :
    outer_product_i16_word xo yo z acc =
      yo.getD 0 + xo.getD 0 * 2 ^ 10 + z * 2 ^ 20 +
        (if acc then 0 else 1) * 2 ^ 27 +
        (if xo.isNone then 1 else 0) * 2 ^ 28 +
        (if yo.isNone then 1 else 0) * 2 ^ 29 := by
  have hna : (if acc then (0 : Nat) else 1) ≤ 1 := by split <;> omega
  have hex : (if xo.isNone then (1 : Nat) else 0) ≤ 1 := by split <;> omega
  have hey : (if yo.isNone then (1 : Nat) else 0) ≤ 1 := by split <;> omega
  unfold outer_product_i16_word
  rw [Nat.shiftLeft_eq, Nat.shiftLeft_eq, Nat.shiftLeft_eq, Nat.shiftLeft_eq,
    Nat.shiftLeft_eq]
  rw [lor_mul_two_pow 10 _ _ (by omega)]
  rw [lor_mul_two_pow 20 _ _ (by omega)]
  rw [lor_mul_two_pow 27 _ _ (by omega)]
  rw [lor_mul_two_pow 28 _ _ (by omega)]
  rw [lor_mul_two_pow 29 _ _ (by omega)]
  rw [Nat.mod_eq_of_lt (by omega)]

theorem outer_product_word_fields_aux (xo yo : Option Nat) (z : Nat) (acc : Bool)
    (hx : xo.getD 0 < 512) (hy : yo.getD 0 < 512) (hz : z < 64) :
    dec_yoff (outer_product_i16_word xo yo z acc) = yo.getD 0 ∧
    dec_xoff (outer_product_i16_word xo yo z acc) = xo.getD 0 ∧
    dec_zrow (outer_product_i16_word xo yo z acc) = z ∧
    dec_noacc (outer_product_i16_word xo yo z acc) = (if acc then 0 else 1) ∧
    dec_excx (outer_product_i16_word xo yo z acc) = (if xo.isNone then 1 else 0) ∧
    dec_excy (outer_product_i16_word xo yo z acc) = (if yo.isNone then 1 else 0) ∧
    outer_product_i16_word xo yo z acc < 2 ^ 30 := by
  have hna : (if acc then (0 : Nat) else 1) ≤ 1 := by split <;> omega
  have hex : (if xo.isNone then (1 : Nat) else 0) ≤ 1 := by split <;> omega
  have hey : (if yo.isNone then (1 : Nat) else 0) ≤ 1 := by split <;> omega
  rw [outer_product_word_eq_sum xo yo z acc hx hy hz]
  unfold dec_yoff dec_xoff dec_zrow dec_noacc dec_excx dec_excy
  refine ⟨by omega, by omega, by omega, by omega, by omega, by omega, by omega⟩

theorem mac16_val_lt (s : AmxState) (w r i : Nat) : mac16_val s w r i < 65536 := by
  unfold mac16_val
  omega

theorem mac16_z16 (s : AmxState) (w r i : Nat) (hr : r < 64) (hi : i < 32)
    (hp : r % 2 = dec_zrow w % 2) :
    z16 (mac16 s w) r i = mac16_val s w r i := by
  have h1 : (64 * r + 2 * i) / 64 = r := by omega
  have h2 : (64 * r + 2 * i) % 64 / 2 = i := by omega
  have h3 : (64 * r + 2 * i) % 2 = 0 := by omega
  have h4 : (64 * r + 2 * i + 1) / 64 = r := by omega
  have h5 : (64 * r + 2 * i + 1) % 64 / 2 = i := by omega
  have h6 : (64 * r + 2 * i + 1) % 2 = 1 := by omega
  have hv := mac16_val_lt s w r i
  have hc : r < 64 ∧ r % 2 = dec_zrow w % 2 := ⟨hr, hp⟩
  unfold z16 mac16
  simp only [h1, h2, h3, h4, h5, h6, if_pos hc]
  norm_num
  omega

theorem mac16_frame (s : AmxState) (w a : Nat)
    (h : a / 64 % 2 ≠ dec_zrow w % 2) :
    (mac16 s w).z a = s.z a := by
  unfold mac16
  exact if_neg (by omega)

theorem mac16_x_unchanged (s : AmxState) (w : Nat) : (mac16 s w).x = s.x := rfl

theorem mac16_y_unchanged (s : AmxState) (w : Nat) : (mac16 s w).y = s.y := rfl

theorem mac16_congr (s : AmxState) (w1 w2 : Nat)
    (hy : dec_yoff w1 = dec_yoff w2) (hx : dec_xoff w1 = dec_xoff w2)
    (hzp : dec_zrow w1 % 2 = dec_zrow w2 % 2)
    (hn : dec_noacc w1 = dec_noacc w2) (hcx : dec_excx w1 = dec_excx w2)
    (hcy : dec_excy w1 = dec_excy w2) (a : Nat) :
    (mac16 s w1).z a = (mac16 s w2).z a := by
  unfold mac16 mac16_val mac16_prod
  simp only [hy, hx, hzp, hn, hcx, hcy]

theorem read_rows_succ (f init : Nat → Nat) (n : Nat) :
    read_rows f (n + 1) init =
      fun a => if a / 64 = n then store512_row f n (a % 64) else read_rows f n init a := by
  unfold read_rows
  rw [List.range_succ, List.foldl_append]
  rfl

theorem read_rows_eq (f init : Nat → Nat) :
    ∀ n a, a < 64 * n → read_rows f n init a = f a := by
  intro n
  induction n with
  | zero => intro a h; omega
  | succ n ih =>
    intro a h
    rw [read_rows_succ]
    show (if a / 64 = n then store512_row f n (a % 64) else read_rows f n init a) = f a
    by_cases hc : a / 64 = n
    · rw [if_pos hc]
      unfold store512_row
      congr 1
      omega
    · rw [if_neg hc]
      exact ih a (by omega)

theorem word16_i16_load (g v : Nat → Nat) (i : Nat) (hi : i < 32) :
    word16 (fun a => if a / 64 = 0 then i16_row_bytes v (a % 64) else g a) 0 i
      = v i % 65536 := by
  have h1 : (0 + 2 * i) % 512 = 2 * i := by omega
  have h2 : (0 + 2 * i + 1) % 512 = 2 * i + 1 := by omega
  have h3 : 2 * i / 64 = 0 := by omega
  have h4 : (2 * i + 1) / 64 = 0 := by omega
  have h5 : 2 * i % 64 = 2 * i := by omega
  have h6 : (2 * i + 1) % 64 = 2 * i + 1 := by omega
  have h7 : 2 * i % 2 = 0 := by omega
  have h8 : (2 * i + 1) % 2 = 1 := by omega
  have h9 : 2 * i / 2 = i := by omega
  have h10 : (2 * i + 1) / 2 = i := by omega
  unfold word16 i16_row_bytes
  simp only [h1, h2, h3, h4, h5, h6, h7, h8, h9, h10]
  norm_num
  omega

theorem load_store_row_helper (g buf : Nat → Nat) (r c : Nat) (hc : c < 64) :
    store512_row (fun a => if a / 64 = r then buf (a % 64) else g a) r c = buf c := by
  unfold store512_row
  show (if (64 * r + c) / 64 = r then buf ((64 * r + c) % 64) else g (64 * r + c)) = buf c
  rw [if_pos (by omega)]
  congr 1
  omega

/-- C9: for every 64-byte buffer and every in-range row address, loading the
buffer into the row with `load512` and then storing that row back with
`store512` (on the emulation backend) yields the original 64 bytes. -/
theorem c9_load512_store512_roundtrip (s : AmxState) (buf : Nat → Nat) (r c : Nat)
    (hc : c < 64) :
    (r < 8 → store512_row (load512_x s r buf).x r c = buf c) ∧
    (r < 8 → store512_row (load512_y s r buf).y r c = buf c) ∧
    (r < 64 → store512_row (load512_z s r buf).z r c = buf c) :=
  ⟨fun _ => load_store_row_helper s.x buf r c hc,
    fun _ => load_store_row_helper s.y buf r c hc,
    fun _ => load_store_row_helper s.z buf r c hc⟩

theorem c9_load512_store512_roundtrip_witness :
    (3 : Nat) < 64 ∧
    ((2 : Nat) < 8 → store512_row (load512_x sZero 2 (fun k => k + 1)).x 2 3 = 3 + 1) ∧
    ((2 : Nat) < 8 → store512_row (load512_y sZero 2 (fun k => k + 1)).y 2 3 = 3 + 1) ∧
    ((2 : Nat) < 64 → store512_row (load512_z sZero 2 (fun k => k + 1)).z 2 3 = 3 + 1) :=
  ⟨by decide, c9_load512_store512_roundtrip sZero (fun k => k + 1) 2 3 (by decide)⟩

/-- C8: `read_x`, `read_y`, `read_z` each issue exactly one 512-bit store per
row in strictly increasing row order (8 rows for X and Y, 64 rows for Z) and
return the byte concatenation of those rows, equal to the concatenation of
the individually stored row contents in row order. -/
theorem c8_read_whole_files (s : AmxState) (init : Nat → Nat) :
    (read_x_rows_issued = List.range 8 ∧ List.Pairwise (· < ·) read_x_rows_issued) ∧
    (read_y_rows_issued = List.range 8 ∧ List.Pairwise (· < ·) read_y_rows_issued) ∧
    (read_z_rows_issued = List.range 64 ∧ List.Pairwise (· < ·) read_z_rows_issued) ∧
    (∀ r c, r < 8 → c < 64 → read_x s init (64 * r + c) = store512_row s.x r c) ∧
    (∀ r c, r < 8 → c < 64 → read_y s init (64 * r + c) = store512_row s.y r c) ∧
    (∀ r c, r < 64 → c < 64 → read_z s init (64 * r + c) = store512_row s.z r c) := by
  refine ⟨⟨rfl, List.pairwise_lt_range 8⟩, ⟨rfl, List.pairwise_lt_range 8⟩,
    ⟨rfl, List.pairwise_lt_range 64⟩, ?_, ?_, ?_⟩
  · intro r c hr hc
    unfold read_x
    rw [read_rows_eq s.x init 8 (64 * r + c) (by omega)]
    rfl
  · intro r c hr hc
    unfold read_y
    rw [read_rows_eq s.y init 8 (64 * r + c) (by omega)]
    rfl
  · intro r c hr hc
    unfold read_z
    rw [read_rows_eq s.z init 64 (64 * r + c) (by omega)]
    rfl

theorem c8_read_whole_files_witness :
    read_x (sOnes) (fun _ => 0) (64 * 0 + 2) = store512_row (sOnes).x 0 2 :=
  ((c8_read_whole_files sOnes (fun _ => 0)).2.2.2.1) 0 2 (by decide) (by decide)

/-- C10: the operand word that `outer_product_i16_xy_to_z` passes to `mac16`
is a pure function of its four arguments: two calls with equal arguments,
regardless of the current register-file contents, pass bit-identical operand
words. -/
theorem c10_operand_word_state_independent (s t : AmxState) (xo yo : Option Nat)
    (z : Nat) (acc : Bool) :
    (outer_product_i16_xy_to_z s xo yo z acc).2 =
      (outer_product_i16_xy_to_z t xo yo z acc).2 := rfl

/-- C2: for in-range offsets (absent or `< 512`) and `z_row < 64`,
`outer_product_i16_xy_to_z` packs one unsigned 64-bit operand word whose
disjoint fields hold the Y byte offset (bits 0..10), the shifted X byte
offset (bits 10..20), the destination Z row index (bits 20..26), a
no-accumulate flag (bit 27) equal to the logical inverse of `accumulate`, an
exclude-X flag (bit 28) set iff `x_offset` is absent and an exclude-Y flag
(bit 29) set iff `y_offset` is absent; an absent offset contributes zero to
its offset field. -/
theorem c2_operand_word_fields (xo yo : Option Nat) (z : Nat) (acc : Bool)
    (hx : xo.getD 0 < 512) (hy : yo.getD 0 < 512) (hz : z < 64) :
    outer_product_i16_word xo yo z acc < 2 ^ 64 ∧
    dec_yoff (outer_product_i16_word xo yo z acc) = yo.getD 0 ∧
    dec_xoff (outer_product_i16_word xo yo z acc) = xo.getD 0 ∧
    dec_zrow (outer_product_i16_word xo yo z acc) = z ∧
    dec_noacc (outer_product_i16_word xo yo z acc) = (if acc then 0 else 1) ∧
    dec_excx (outer_product_i16_word xo yo z acc) = (if xo.isNone then 1 else 0) ∧
    dec_excy (outer_product_i16_word xo yo z acc) = (if yo.isNone then 1 else 0) := by
  obtain ⟨a1, a2, a3, a4, a5, a6, a7⟩ := outer_product_word_fields_aux xo yo z acc hx hy hz
  exact ⟨by omega, a1, a2, a3, a4, a5, a6⟩

theorem c2_operand_word_fields_witness :
    ((some 3 : Option Nat).getD 0 < 512 ∧ (some 5 : Option Nat).getD 0 < 512 ∧
      (7 : Nat) < 64) ∧
    (outer_product_i16_word (some 3) (some 5) 7 true < 2 ^ 64 ∧
      dec_yoff (outer_product_i16_word (some 3) (some 5) 7 true) = (some 5 : Option Nat).getD 0 ∧
      dec_xoff (outer_product_i16_word (some 3) (some 5) 7 true) = (some 3 : Option Nat).getD 0 ∧
      dec_zrow (outer_product_i16_word (some 3) (some 5) 7 true) = 7 ∧
      dec_noacc (outer_product_i16_word (some 3) (some 5) 7 true) = (if true then 0 else 1) ∧
      dec_excx (outer_product_i16_word (some 3) (some 5) 7 true) =
        (if (some 3 : Option Nat).isNone then 1 else 0) ∧
      dec_excy (outer_product_i16_word (some 3) (some 5) 7 true) =
        (if (some 5 : Option Nat).isNone then 1 else 0)) :=
  ⟨⟨by decide, by decide, by decide⟩,
    c2_operand_word_fields (some 3) (some 5) 7 true (by decide) (by decide) (by decide)⟩

theorem mac16_z (s : AmxState) (w a : Nat) :
    (mac16 s w).z a =
      if a / 64 < 64 ∧ a / 64 % 2 = dec_zrow w % 2 then
        if a % 2 = 0 then mac16_val s w (a / 64) (a % 64 / 2) % 256
        else mac16_val s w (a / 64) (a % 64 / 2) / 256
      else s.z a := rfl

/-- C1: for every pair of 32-element 16-bit vectors `x` and `y` loaded at row
0 of X and Y, after `outer_product_i16_xy_to_z (some (XBytes 0))
(some (YBytes 0)) (ZRow 0) false`, reading Z yields
`z[2*j][i] == x[i] * y[j]` (as 16-bit lane patterns) for all `i, j < 32`. -/
theorem c1_outer_product_i16_correct (s : AmxState) (xv yv : Nat → Nat) (i j : Fin 32) :
    z16 ((outer_product_i16_xy_to_z
          (load512_y (load512_x s 0 (i16_row_bytes xv)) 0 (i16_row_bytes yv))
          (some 0) (some 0) 0 false).1)
        (2 * j.val) i.val = xv i.val * yv j.val % 65536 := by
  obtain ⟨fy, fx, fz, fn, fcx, fcy, _⟩ :=
    outer_product_word_fields_aux (some 0) (some 0) 0 false (by decide) (by decide) (by decide)
  set w := outer_product_i16_word (some 0) (some 0) 0 false with hw
  set s2 := load512_y (load512_x s 0 (i16_row_bytes xv)) 0 (i16_row_bytes yv) with hs2
  have fy' : dec_yoff w = 0 := by simpa using fy
  have fx' : dec_xoff w = 0 := by simpa using fx
  have fn' : dec_noacc w = 1 := by simpa using fn
  have fcx' : dec_excx w = 0 := by simpa using fcx
  have fcy' : dec_excy w = 0 := by simpa using fcy
  show z16 (mac16 s2 w) (2 * j.val) i.val = _
  rw [mac16_z16 s2 w (2 * j.val) i.val (by omega) i.isLt (by rw [fz]; omega)]
  unfold mac16_val mac16_prod
  rw [fn', fcx', fcy', fy', fx']
  norm_num
  have hwx : word16 s2.x 0 i.val = xv i.val % 65536 := word16_i16_load s.x xv i.val i.isLt
  have hwy : word16 s2.y 0 j.val = yv j.val % 65536 := word16_i16_load s.y yv j.val j.isLt
  rw [hwx, hwy, ← Nat.mul_mod]

theorem mac16_prod_congr (s t : AmxState) (w1 w2 r i : Nat)
    (hsx : t.x = s.x) (hsy : t.y = s.y)
    (hy : dec_yoff w1 = dec_yoff w2) (hx : dec_xoff w1 = dec_xoff w2)
    (hcx : dec_excx w1 = dec_excx w2) (hcy : dec_excy w1 = dec_excy w2) :
    mac16_prod t w1 r i = mac16_prod s w2 r i := by
  unfold mac16_prod
  rw [hsx, hsy, hy, hx, hcx, hcy]

theorem mac16_overwrite_idempotent (s : AmxState) (w : Nat)
    (hn : dec_noacc w = 1) (a : Nat) :
    (mac16 (mac16 s w) w).z a = (mac16 s w).z a := by
  have hval : ∀ r i, mac16_val (mac16 s w) w r i = mac16_val s w r i := by
    intro r i
    unfold mac16_val
    rw [hn, mac16_prod_congr s (mac16 s w) w w r i rfl rfl rfl rfl rfl rfl]
    norm_num
  rw [mac16_z (mac16 s w) w a, mac16_z s w a]
  by_cases hc : a / 64 < 64 ∧ a / 64 % 2 = dec_zrow w % 2
  · rw [if_pos hc, if_pos hc]
    simp only [hval]
  · rw [if_neg hc, if_neg hc]

/-- C7: for every operand configuration (offsets `< 512` or absent,
`z_row < 64`), issuing the same outer-product call twice with
`accumulate = true` on the second call doubles the single-call 16-bit lane
values on the written rows (modulo 2^16, i.e. as wrapping `i16`) and leaves
the other rows as after the single call; issuing it twice with
`accumulate = false` on the second call leaves the whole Z file equal to the
single-call result (overwrite, not addition). -/
theorem c7_accumulate_semantics (s : AmxState) (xo yo : Option Nat) (z : Nat)
    (hx : xo.getD 0 < 512) (hy : yo.getD 0 < 512) (hz : z < 64) :
    (∀ a, ((outer_product_i16_xy_to_z
            ((outer_product_i16_xy_to_z s xo yo z false).1) xo yo z false).1).z a
        = ((outer_product_i16_xy_to_z s xo yo z false).1).z a) ∧
    (∀ r i, r < 64 → i < 32 → r % 2 = z % 2 →
      z16 ((outer_product_i16_xy_to_z
            ((outer_product_i16_xy_to_z s xo yo z false).1) xo yo z true).1) r i
        = 2 * z16 ((outer_product_i16_xy_to_z s xo yo z false).1) r i % 65536) ∧
    (∀ a, a / 64 % 2 ≠ z % 2 →
      ((outer_product_i16_xy_to_z
            ((outer_product_i16_xy_to_z s xo yo z false).1) xo yo z true).1).z a
        = ((outer_product_i16_xy_to_z s xo yo z false).1).z a) := by
  obtain ⟨fy, fx, fz, fn, fcx, fcy, _⟩ := outer_product_word_fields_aux xo yo z false hx hy hz
  obtain ⟨ty, tx, tz, tn, tcx, tcy, _⟩ := outer_product_word_fields_aux xo yo z true hx hy hz
  set wf := outer_product_i16_word xo yo z false with hwf
  set wt := outer_product_i16_word xo yo z true with hwt
  have fn' : dec_noacc wf = 1 := by simpa using fn
  have tn' : dec_noacc wt = 0 := by simpa using tn
  have s1x : (mac16 s wf).x = s.x := rfl
  have s1y : (mac16 s wf).y = s.y := rfl
  refine ⟨fun a => mac16_overwrite_idempotent s wf fn' a, ?_, ?_⟩
  · intro r i hr hi hp
    show z16 (mac16 (mac16 s wf) wt) r i = 2 * z16 (mac16 s wf) r i % 65536
    have hpt : r % 2 = dec_zrow wt % 2 := by rw [tz]; exact hp
    have hpf : r % 2 = dec_zrow wf % 2 := by rw [fz]; exact hp
    rw [mac16_z16 (mac16 s wf) wt r i hr hi hpt, mac16_z16 s wf r i hr hi hpf]
    unfold mac16_val
    rw [fn', tn']
    rw [mac16_prod_congr s (mac16 s wf) wt wf r i s1x s1y (by rw [ty, fy])
      (by rw [tx, fx]) (by rw [tcx, fcx]) (by rw [tcy, fcy])]
    rw [mac16_z16 s wf r i hr hi hpf]
    unfold mac16_val
    rw [fn']
    norm_num
    omega
  · intro a hp
    show (mac16 (mac16 s wf) wt).z a = (mac16 s wf).z a
    exact mac16_frame (mac16 s wf) wt a (by rw [tz]; exact hp)

theorem c7_accumulate_semantics_witness :
    ((some 0 : Option Nat).getD 0 < 512 ∧ (some 0 : Option Nat).getD 0 < 512 ∧
      (0 : Nat) < 64) ∧
    z16 ((outer_product_i16_xy_to_z
          ((outer_product_i16_xy_to_z sOnes (some 0) (some 0) 0 false).1)
          (some 0) (some 0) 0 true).1) 0 0
      = 2 * z16 ((outer_product_i16_xy_to_z sOnes (some 0) (some 0) 0 false).1) 0 0 % 65536 :=
  ⟨⟨by decide, by decide, by decide⟩,
    (c7_accumulate_semantics sOnes (some 0) (some 0) 0 (by decide) (by decide)
        (by decide)).2.1 0 0 (by decide) (by decide) (by decide)⟩

/-- C5 (amended): every 16-bit multiply-accumulate call writes exactly the 32
Z rows whose index parity equals the least-significant bit of the operand
word's Z-row field — each 16-bit lane of such a row receives the
multiply-accumulate value — and leaves the other 32 rows unchanged; the
32-bit path (modelled from the spec) writes one row per call, selected by the
Z-row field, and leaves every other row unchanged. -/
theorem c5_row_footprint (s : AmxState) (w : Nat) (v : Nat → Nat) :
    (∀ r i, r < 64 → i < 32 → r % 2 = dec_zrow w % 2 →
        z16 (mac16 s w) r i = mac16_val s w r i) ∧
    (∀ a, a / 64 % 2 ≠ dec_zrow w % 2 → (mac16 s w).z a = s.z a) ∧
    (∀ a, a / 64 ≠ dec_zrow w → (mac32 v s w).z a = s.z a) ∧
    (∀ a, a / 64 = dec_zrow w → (mac32 v s w).z a = v (a % 64)) := by
  refine ⟨fun r i hr hi hp => mac16_z16 s w r i hr hi hp,
    fun a hp => mac16_frame s w a hp, fun a hne => ?_, fun a heq => ?_⟩
  · exact if_neg hne
  · exact if_pos heq

theorem c5_row_footprint_witness :
    z16 (mac16 sOnes (2 ^ 27)) 0 0 = mac16_val sOnes (2 ^ 27) 0 0 ∧
    (mac16 sOnes (2 ^ 27)).z 64 = sOnes.z 64 ∧
    (mac32 (fun _ => 7) sOnes (2 ^ 27)).z 64 = sOnes.z 64 ∧
    (mac32 (fun _ => 7) sOnes (2 ^ 27)).z 8 = 7 :=
  have h := c5_row_footprint sOnes (2 ^ 27) (fun _ => 7)
  ⟨h.1 0 0 (by decide) (by decide) (by decide), h.2.1 64 (by decide),
    h.2.2.1 64 (by decide), h.2.2.2 8 (by decide)⟩

/-- C5 is false as stated: a single 16-bit multiply-accumulate call writes
more than two Z rows — with all-ones inputs, rows 0, 2 and 4 all change. -/
theorem c5_counterexample :
    (mac16 sOnes (outer_product_i16_word (some 0) (some 0) 0 false)).z (64 * 0)
        ≠ sOnes.z (64 * 0) ∧
    (mac16 sOnes (outer_product_i16_word (some 0) (some 0) 0 false)).z (64 * 2)
        ≠ sOnes.z (64 * 2) ∧
    (mac16 sOnes (outer_product_i16_word (some 0) (some 0) 0 false)).z (64 * 4)
        ≠ sOnes.z (64 * 4) := by
  decide

/-- C6 (amended): `outer_product_i16_xy_to_z` does not mask `z_row`; it
packs all of `z_row`'s bits into the operand word and debug-asserts
`z_row < 64` (so an out-of-range `z_row` is a loud precondition failure, not
a silent alias).  For in-range `z_row` values the emulated `mac16` uses only
the least-significant bit of the Z-row field, so any two `z_row` values
below 64 that agree in their least-significant bit have the same effect. -/
theorem c6_z_row_lsb_aliasing (s : AmxState) (xo yo : Option Nat) (z1 z2 : Nat)
    (acc : Bool) (hx : xo.getD 0 < 512) (hy : yo.getD 0 < 512)
    (h1 : z1 < 64) (h2 : z2 < 64) (hp : z1 % 2 = z2 % 2) (a : Nat) :
    ((outer_product_i16_xy_to_z s xo yo z1 acc).1).z a
      = ((outer_product_i16_xy_to_z s xo yo z2 acc).1).z a := by
  obtain ⟨y1, x1, zz1, n1, cx1, cy1, _⟩ := outer_product_word_fields_aux xo yo z1 acc hx hy h1
  obtain ⟨y2, x2, zz2, n2, cx2, cy2, _⟩ := outer_product_word_fields_aux xo yo z2 acc hx hy h2
  exact mac16_congr s _ _ (by rw [y1, y2]) (by rw [x1, x2])
    (by rw [zz1, zz2]; exact hp) (by rw [n1, n2]) (by rw [cx1, cx2])
    (by rw [cy1, cy2]) a

theorem c6_z_row_lsb_aliasing_witness :
    ((some 0 : Option Nat).getD 0 < 512 ∧ (some 0 : Option Nat).getD 0 < 512 ∧
      (0 : Nat) < 64 ∧ (2 : Nat) < 64 ∧ (0 : Nat) % 2 = 2 % 2) ∧
    ((outer_product_i16_xy_to_z sOnes (some 0) (some 0) 0 false).1).z 0
      = ((outer_product_i16_xy_to_z sOnes (some 0) (some 0) 2 false).1).z 0 :=
  ⟨⟨by decide, by decide, by decide, by decide, by decide⟩,
    c6_z_row_lsb_aliasing sOnes (some 0) (some 0) 0 2 false (by decide) (by decide)
      (by decide) (by decide) (by decide) 0⟩

/-- C6 is false as stated: the encoder does not mask `z_row` to the 6-bit
hardware field (at `z_row = 64` the packed word differs from the word for the
masked value `64 % 64 = 0`), and passing `z_row = 64` is not silent — the
`debug_assert!` precondition fails. -/
theorem c6_counterexample :
    outer_product_i16_word (some 0) (some 0) 64 false
        ≠ outer_product_i16_word (some 0) (some 0) (64 % 64) false ∧
    ¬ outer_product_i16_preconds (some 0) (some 0) 64 := by
  decide

/-- C4: any (index_offset, table_row) pair whose index-source byte range
overlaps the table row's byte range in either addressing page (the base page
or the page offset by 512 bytes) is rejected by the lookup before any
primitive operation is issued. -/
theorem c4_lut_rejects_overlap (s : AmxState) (input : LutIn) (table_row out_row : Nat)
    (h : overlapsRange input.off (input.off + 64) (64 * table_row) (64 * table_row + 64) ∨
        overlapsRange input.off (input.off + 64)
          (64 * table_row + 512) (64 * table_row + 64 + 512)) :
    lut_normal_index4_x8 s input table_row out_row = none := by
  unfold lut_normal_index4_x8
  exact if_neg fun hcond => h.elim (fun h1 => hcond.2.2.1 h1) (fun h2 => hcond.2.2.2 h2)

theorem c4_lut_rejects_overlap_witness :
    (overlapsRange (LutIn.xBytes 0).off ((LutIn.xBytes 0).off + 64) (64 * 0) (64 * 0 + 64) ∨
      overlapsRange (LutIn.xBytes 0).off ((LutIn.xBytes 0).off + 64)
        (64 * 0 + 512) (64 * 0 + 64 + 512)) ∧
    lut_normal_index4_x8 sZero (LutIn.xBytes 0) 0 1 = none :=
  ⟨Or.inl (by decide),
    c4_lut_rejects_overlap sZero (LutIn.xBytes 0) 0 1 (Or.inl (by decide))⟩

/-- C3: for every 64-entry byte table loaded at X row `table_row` and every
packed array of 64 4-bit indices (two per byte, low nibble first) placed at a
legal non-overlapping byte offset in X or Y — including placements whose
byte range straddles a 64-byte row boundary — the `lut` operation with
selector (Normal, Index4, X8) writes to each output position `i` the table
entry `table[index[i]]`. -/
theorem c3_lut_normal_index4_x8_correct (s : AmxState) (input : LutIn)
    (table_row out_row : Nat) (idx tbl : Nat → Nat)
    (htr : table_row < 8) (hor : out_row < 8)
    (hfit : input.off + 64 ≤ 512)
    (hn1 : ¬ overlapsRange input.off (input.off + 64)
        (64 * table_row) (64 * table_row + 64))
    (hn2 : ¬ overlapsRange input.off (input.off + 64)
        (64 * table_row + 512) (64 * table_row + 64 + 512))
    (hidx : ∀ b, b < 32 → input.read s (input.off + b) = idx (2 * b) + 16 * idx (2 * b + 1))
    (hnib : ∀ n, n < 64 → idx n < 16)
    (htbl : ∀ k, k < 64 → s.x (64 * table_row + k) = tbl k) :
    ∃ s2, lut_normal_index4_x8 s input table_row out_row = some s2 ∧
      ∀ i, i < 64 → s2.x (64 * out_row + i) = tbl (idx i) := by
  refine ⟨{ s with
      x := fun a =>
        if a / 64 = out_row then s.x (64 * table_row + lut_index4 s input a)
        else s.x a }, ?_, ?_⟩
  · unfold lut_normal_index4_x8
    rw [if_pos ⟨htr, hor, hn1, hn2⟩]
  · intro i hi
    show (if (64 * out_row + i) / 64 = out_row then
        s.x (64 * table_row + lut_index4 s input (64 * out_row + i))
      else s.x (64 * out_row + i)) = tbl (idx i)
    rw [if_pos (by omega)]
    have hidx4 : lut_index4 s input (64 * out_row + i) = idx i := by
      unfold lut_index4
      have hmod : (64 * out_row + i) % 64 = i := by omega
      have hpar : (64 * out_row + i) % 2 = i % 2 := by omega
      rw [hmod, hpar]
      have hb : i / 2 < 32 := by omega
      have hoff : (input.off + i / 2) % 512 = input.off + i / 2 := by omega
      rw [hoff, hidx (i / 2) hb]
      by_cases hp : i % 2 = 0
      · rw [if_pos hp]
        have h2 : 2 * (i / 2) = i := by omega
        rw [h2]
        have hlo := hnib i hi
        omega
      · rw [if_neg hp]
        have h2 : 2 * (i / 2) + 1 = i := by omega
        rw [h2]
        have hlo := hnib (2 * (i / 2)) (by omega)
        have hhi := hnib i hi
        omega
    rw [hidx4]
    exact htbl (idx i) (by have := hnib i hi; omega)

theorem c3_lut_normal_index4_x8_correct_witness :
    ((0 : Nat) < 8 ∧ (2 : Nat) < 8 ∧ (LutIn.xBytes 64).off + 64 ≤ 512 ∧
      ¬ overlapsRange (LutIn.xBytes 64).off ((LutIn.xBytes 64).off + 64)
          (64 * 0) (64 * 0 + 64) ∧
      ¬ overlapsRange (LutIn.xBytes 64).off ((LutIn.xBytes 64).off + 64)
          (64 * 0 + 512) (64 * 0 + 64 + 512) ∧
      (∀ b, b < 32 → (LutIn.xBytes 64).read sLut ((LutIn.xBytes 64).off + b)
          = idx5 (2 * b) + 16 * idx5 (2 * b + 1)) ∧
      (∀ n, n < 64 → idx5 n < 16) ∧
      (∀ k, k < 64 → sLut.x (64 * 0 + k) = tbl7 k)) ∧
    (∃ s2, lut_normal_index4_x8 sLut (LutIn.xBytes 64) 0 2 = some s2 ∧
      ∀ i, i < 64 → s2.x (64 * 2 + i) = tbl7 (idx5 i)) :=
  ⟨⟨by decide, by decide, by decide, by decide, by decide, by decide,
      by decide, by decide⟩,
    c3_lut_normal_index4_x8_correct sLut (LutIn.xBytes 64) 0 2 idx5 tbl7
      (by decide) (by decide) (by decide) (by decide) (by decide)
      (by decide) (by decide) (by decide)⟩

end Amx
